import Mathlib

/-!
# cpp-frp: the push `filter` operator and `util::invoke`

A shallow embedding of

* `frp/static/push/filter.h`: the generator that `filter` hands to
  `details::make_repository`;
* `frp/util/function.h`: `util::invoke` and `util::details::invoke`.

Effects are made explicit.  The lambda submitted to the executor is
defunctionalised into a `work_unit` (its captures `index` and `&value`) that
`run_unit` interprets; the shared collector, the commits handed to `callback`
and a trace of the calls made are threaded through as a `round_state`.  The
executor is a parameter of the submission loop, as it is of the C++ generator.

The headers `frp/util/collector.h`, `frp/static/push/repository.h`,
`frp/vector_view.h` and `frp/util/reference.h` are not among the sources; what
`filter.h` and `function.h` use of them is modelled from the specification,
behind the interface that the call sites fix.
-/

namespace frp

namespace util

/-- Type `util::revision_type`: a revision number. -/
abbrev revision_type := Nat

/-- Modelled from the spec: the constant `util::default_revision` (its header is not among the
sources at hand), the sentinel "default/no-op" revision of section 3: the default value of a
revision, which the Revision Clock, a counter that only increases, never issues. -/
def default_revision : revision_type := 0

/-- Type `util::commit_storage_type<V, 1>`: a value, its revision and the revisions of the
dependencies it was derived from. -/
structure commit_storage_type (V : Type) where
  value : V
  revision : revision_type
  revisions : List revision_type
deriving DecidableEq, Repr

/-- A reference to an element of the upstream collection, as bound by
`for (const auto &value : storage->value)` and passed on as `std::ref(value)`: which element
of the collection it refers to (`position`) and that element (`get`). -/
structure element_ref (T : Type) where
  position : Nat
  get : T
deriving DecidableEq, Repr

/-- The collector operations that `filter.h` uses: construction from a size,
`construct(std::ref(value))`, `skip()` (both answer whether the collector is now complete) and
the conversion of a collector into a `vector_view_type`.  `construct` receives a reference
to the upstream element and no index; `skip` receives nothing. -/
structure collector_ops (σ T : Type) where
  make : Nat → σ
  construct : σ → element_ref T → σ × Bool
  skip : σ → σ × Bool
  view : σ → List T

/-- Modelled from the spec: `util::append_collector_type` (`frp/util/collector.h` is not among
the sources at hand), the Collector of section 4.2.  It has a fixed target size (`capacity`),
counts the positions resolved so far (`counter`) and keeps a copy of every constructed value
together with the position it resolves (`storage`). -/
structure append_collector_type (T : Type) where
  capacity : Nat
  counter : Nat
  storage : List (Nat × T)
deriving DecidableEq, Repr

namespace append_collector_type

variable {T : Type}

/-- Modelled from the spec: `Collector(size)`, logical capacity for `size` positions, none
resolved yet. -/
def make (capacity : Nat) : append_collector_type T :=
  { capacity := capacity, counter := 0, storage := [] }

/-- Modelled from the spec: `construct` resolves a position by storing a copy of the value
and answers true iff this call resolved the last outstanding position.  The position is the
one of the upstream element that the reference passed by `filter.h` refers to. -/
def construct (c : append_collector_type T) (value : element_ref T) :
    append_collector_type T × Bool :=
  ({ capacity := c.capacity, counter := c.counter + 1,
     storage := c.storage ++ [(value.position, value.get)] },
    c.counter + 1 == c.capacity)

/-- Modelled from the spec: `skip` resolves a position as omitted and answers true iff this
call resolved the last outstanding position. -/
def skip (c : append_collector_type T) : append_collector_type T × Bool :=
  ({ capacity := c.capacity, counter := c.counter + 1, storage := c.storage },
    c.counter + 1 == c.capacity)

/-- Modelled from the spec: `finalize()`, the final collection: all constructed values in
original upstream order; skipped positions contribute nothing. -/
def view (c : append_collector_type T) : List T :=
  (List.range c.capacity).filterMap fun i => c.storage.lookup i

end append_collector_type

/-- The append collector packaged as the operations `filter.h` calls. -/
def append_ops (T : Type) : collector_ops (append_collector_type T) T where
  make := append_collector_type.make
  construct := append_collector_type.construct
  skip := append_collector_type.skip
  view := append_collector_type.view

/-- Modelled from the spec: `util::unwrap_reference` (`frp/util/reference.h` is not among the
sources at hand).  An argument is either an object or a `std::reference_wrapper` around one. -/
inductive maybe_reference (A : Type) where
  | object (a : A)
  | reference_wrapper (a : A)
deriving DecidableEq, Repr

/-- Modelled from the spec: `util::unwrap_reference` yields the object itself, or the object a
reference wrapper refers to. -/
def unwrap_reference {A : Type} : maybe_reference A → A
  | .object a => a
  | .reference_wrapper a => a

/-- Expression `std::make_index_sequence<n>{}`: the indices `0, ..., n-1`, each known to be in range. -/
def make_index_sequence (n : Nat) : List (Fin n) := List.finRange n

namespace details

/-- Function `util::details::invoke(f, tuple, std::index_sequence<I...>)`:
`f(std::get<I>(unwrap_reference(tuple))...)`.  A tuple is the list of its elements and a call
`f(a, b, ...)` is `f` applied to the list of its arguments in order. -/
def invoke {A R : Type} (f : List A → R) (tuple : maybe_reference (List A))
    (I : List (Fin (unwrap_reference tuple).length)) : R :=
  f (I.map fun i => (unwrap_reference tuple).get i)

end details

/-- Function `util::invoke(f, tuple)`: `details::invoke` with the index sequence of the tuple size. -/
def invoke {A R : Type} (f : List A → R) (tuple : maybe_reference (List A)) : R :=
  details.invoke f tuple (make_index_sequence (unwrap_reference tuple).length)

end util

namespace stat
namespace push

open util

/-- The captures of the lambda that `filter` submits to the executor which differ between
units: `index` and the reference `&value`. -/
structure work_unit (T : Type) where
  index : Nat
  value : element_ref T
deriving DecidableEq, Repr

/-- A call made by a unit of work, tagged with the `index` captured by the unit making it. -/
inductive event (T : Type) where
  | evaluate (index : Nat) (value : T)
  | construct (index : Nat) (value : T)
  | skip (index : Nat)
  | callback (index : Nat)
deriving DecidableEq, Repr

/-- What a derivation round shares between its units: the collector, the commits handed to
`callback` so far (oldest first) and the trace of calls made. -/
structure round_state (σ T : Type) where
  collector : σ
  callbacks : List (commit_storage_type (List T))
  trace : List (event T)

/-- The body of the lambda submitted to the executor (`filter.h`, lines 49-56).  A predicate
that throws leaves the collector untouched and the fault leaves the unit. -/
def run_unit {σ T ε : Type} (C : collector_ops σ T) (default_revision : revision_type)
    (function : T → Except ε Bool) (storage : commit_storage_type (List T))
    (u : work_unit T) (s : round_state σ T) : round_state σ T × Option ε :=
  match function u.value.get with
  | .error e =>
    ({ collector := s.collector, callbacks := s.callbacks,
       trace := s.trace ++ [event.evaluate u.index u.value.get] }, some e)
  | .ok b =>
    let r := if b then C.construct s.collector u.value else C.skip s.collector
    let t := s.trace ++ [event.evaluate u.index u.value.get,
      if b then event.construct u.index u.value.get else event.skip u.index]
    if r.2 then
      ({ collector := r.1,
         callbacks := s.callbacks ++ [{ value := C.view r.1, revision := default_revision,
                                        revisions := [storage.revision] }],
         trace := t ++ [event.callback u.index] }, none)
    else
      ({ collector := r.1, callbacks := s.callbacks, trace := t }, none)

/-- The state a generator call works on: the round and the units an executor has accepted but
not run yet. -/
structure world (σ T : Type) where
  round : round_state σ T
  queue : List (work_unit T)

/-- The references that `for (const auto &value : storage->value)` binds, in iteration
order. -/
def references {T : Type} (S : List T) : List (element_ref T) :=
  (S.enumFrom 0).map fun p => { position := p.1, get := p.2 }

/-- The `for` loop of `filter.h`, lines 46-57: one `executor(...)` call per element, with
`index` taken from `counter++`.  A fault leaving the executor call leaves the loop. -/
def submit_loop {σ T ε : Type} (executor : world σ T → work_unit T → world σ T × Option ε) :
    Nat → List (element_ref T) → world σ T → world σ T × Option ε
  | _, [], w => (w, none)
  | counter, value :: rest, w =>
    match executor w { index := counter, value := value } with
    | (w1, some e) => (w1, some e)
    | (w1, none) => submit_loop executor (counter + 1) rest w1

/-- The generator that `filter` passes to `make_repository` (`filter.h`, lines 37-59), its
`callback` being the recording of the commit. -/
def filter_generator {σ T ε : Type} (C : collector_ops σ T) (default_revision : revision_type)
    (executor : world σ T → work_unit T → world σ T × Option ε)
    (storage : commit_storage_type (List T)) : world σ T × Option ε :=
  if storage.value.isEmpty then
    ({ round := { collector := C.make 0,
                  callbacks := [{ value := C.view (C.make 0), revision := default_revision,
                                  revisions := [storage.revision] }],
                  trace := [] },
       queue := [] }, none)
  else
    submit_loop executor 0 (references storage.value)
      { round := { collector := C.make storage.value.length, callbacks := [], trace := [] },
        queue := [] }

/-- An executor that runs each unit at the moment it is submitted. -/
def inline_executor {σ T ε : Type} (C : collector_ops σ T) (default_revision : revision_type)
    (function : T → Except ε Bool) (storage : commit_storage_type (List T))
    (w : world σ T) (u : work_unit T) : world σ T × Option ε :=
  let r := run_unit C default_revision function storage u w.round
  ({ round := r.1, queue := w.queue }, r.2)

/-- An inline executor that also keeps, in `queue`, a record of the units it was handed. -/
def recording_executor {σ T ε : Type} (C : collector_ops σ T)
    (default_revision : revision_type)
    (function : T → Except ε Bool) (storage : commit_storage_type (List T))
    (w : world σ T) (u : work_unit T) : world σ T × Option ε :=
  let r := run_unit C default_revision function storage u w.round
  ({ round := r.1, queue := w.queue ++ [u] }, r.2)

/-- An executor that only accepts the unit; the units are run later. -/
def deferred_executor {σ T ε : Type} (w : world σ T) (u : work_unit T) :
    world σ T × Option ε :=
  ({ round := w.round, queue := w.queue ++ [u] }, none)

/-- Run units one after the other; a fault leaving a unit is recorded and the next unit runs. -/
def run_units {σ T ε : Type} (C : collector_ops σ T) (default_revision : revision_type)
    (function : T → Except ε Bool) (storage : commit_storage_type (List T)) :
    List (work_unit T) → round_state σ T → round_state σ T × List ε
  | [], s => (s, [])
  | u :: us, s =>
    let r := run_unit C default_revision function storage u s
    let q := run_units C default_revision function storage us r.1
    (q.1, r.2.toList ++ q.2)

/-- Run the accepted units in the order given by `order`, a list of positions in the queue. -/
def run_schedule {σ T ε : Type} (C : collector_ops σ T) (default_revision : revision_type)
    (function : T → Except ε Bool) (storage : commit_storage_type (List T))
    (order : List Nat) (w : world σ T) : round_state σ T × List ε :=
  run_units C default_revision function storage (order.filterMap fun i => w.queue[i]?) w.round

/-- A derivation round of `filter` with an inline executor. -/
def filter_inline {σ T ε : Type} (C : collector_ops σ T) (default_revision : revision_type)
    (function : T → Except ε Bool) (storage : commit_storage_type (List T)) :
    round_state σ T × Option ε :=
  let r := filter_generator C default_revision
    (inline_executor C default_revision function storage) storage
  (r.1.round, r.2)

/-- A derivation round of `filter` with an executor that runs the submitted units after the
generator has returned, in the order `order`. -/
def filter_deferred {σ T ε : Type} (C : collector_ops σ T) (default_revision : revision_type)
    (function : T → Except ε Bool) (storage : commit_storage_type (List T))
    (order : List Nat) : round_state σ T × List ε :=
  run_schedule C default_revision function storage order
    (filter_generator C default_revision (deferred_executor : _ → _ → _ × Option ε) storage).1

/-- A predicate that never faults. -/
def total {T : Type} (ε : Type) (P : T → Bool) : T → Except ε Bool := fun v => .ok (P v)

/-- The units that the loop of `filter.h` submits for the collection `S`, in submission
order: the unit for position `i` captures `index = i` and a reference to the element at
position `i`. -/
def units_of {T : Type} (S : List T) : List (work_unit T) :=
  ((references S).enumFrom 0).map fun p => { index := p.1, value := p.2 }

/-- Whether a unit resolves a position of the collector: its predicate call returns. -/
def resolves {T ε : Type} (function : T → Except ε Bool) (u : work_unit T) : Bool :=
  match function u.value.get with
  | .ok _ => true
  | .error _ => false

/-- The entry a unit constructs in the collector, if any: its own element at the position of
that element, when the predicate holds. -/
def keeps {T ε : Type} (function : T → Except ε Bool) (u : work_unit T) : Option (Nat × T) :=
  match function u.value.get with
  | .ok true => some (u.value.position, u.value.get)
  | _ => none

/-- The fault that leaves a unit, if any. -/
def fault_of {T ε : Type} (function : T → Except ε Bool) (u : work_unit T) : Option ε :=
  match function u.value.get with
  | .ok _ => none
  | .error e => some e

/-- The units that observed the collector becoming complete, read off a trace: the `index` of
every unit that called `callback`, oldest first. -/
def completions {T : Type} : List (event T) → List Nat
  | [] => []
  | event.callback i :: t => i :: completions t
  | _ :: t => completions t

/-- The calls a unit makes before it looks at the answer of the collector: one predicate
evaluation on its element, then `construct` with that element or `skip`. -/
def unit_calls {T : Type} (P : T → Bool) (u : work_unit T) : List (event T) :=
  [event.evaluate u.index u.value.get,
    if P u.value.get then event.construct u.index u.value.get else event.skip u.index]

/-- Modelled from the spec: equality of two `vector_view_type` values
(`std::equal_to<collector_view_type>`; `frp/vector_view.h` is not among the sources at hand):
same length and element-wise equal by the Comparator. -/
def view_equal {T : Type} (comparator : T → T → Bool) : List T → List T → Bool
  | [], [] => true
  | a :: as, b :: bs => comparator a b && view_equal comparator as bs
  | _, _ => false

/-- Modelled from the spec: the Revision Clock (section 4.1).  The state is the latest revision
issued; `next()` issues a revision strictly greater than it.  The result is the revision issued
and the new state. -/
def clock_next (clock : revision_type) : revision_type × revision_type :=
  (clock + 1, clock + 1)

/-- Modelled from the spec: the publication step of a node (section 4.3;
`details::make_repository` of `frp/static/push/repository.h` is not among the sources at hand).
When the new value equals the previously published one the commit carries the sentinel revision
and the new source revisions, otherwise a fresh revision from the clock.  The result is
the commit published and the state of the clock. -/
def publish {T : Type} (comparator : T → T → Bool) (default_revision : revision_type)
    (clock : revision_type) (previous commit : commit_storage_type (List T)) :
    commit_storage_type (List T) × revision_type :=
  if view_equal comparator commit.value previous.value then
    ({ value := commit.value, revision := default_revision, revisions := commit.revisions },
      clock)
  else
    ({ value := commit.value, revision := (clock_next clock).1, revisions := commit.revisions },
      (clock_next clock).2)

/-- Modelled from the spec: a Node (section 3) as far as revisions go: the latest published
commit, and the state of the Revision Clock it draws from. -/
structure node (T : Type) where
  clock : revision_type
  current : commit_storage_type (List T)
deriving DecidableEq, Repr

/-- Modelled from the spec: the `callback` that the repository hands to the generator
(section 4.3): publish the commit against the node's current one and make it current. -/
def node_publish {T : Type} (comparator : T → T → Bool) (n : node T)
    (commit : commit_storage_type (List T)) : node T :=
  { clock := (publish comparator default_revision n.clock n.current commit).2,
    current := (publish comparator default_revision n.clock n.current commit).1 }

/-- One derivation round of a `filter` node: the generator of `filter.h` runs on the new
upstream commit, its units run in the order `order`, and every commit handed to `callback`
is published. -/
def node_round {T ε : Type} (comparator : T → T → Bool) (function : T → Except ε Bool)
    (n : node T) (storage : commit_storage_type (List T)) (order : List Nat) : node T :=
  (filter_deferred (append_ops T) default_revision function storage order).1.callbacks.foldl
    (node_publish comparator) n

end push
end stat

end frp

open frp frp.util frp.stat.push

namespace frp
namespace stat
namespace push

open util

/-! ## The submission loop -/

theorem submit_loop_deferred {σ T ε : Type} (vs : List (element_ref T)) (c : Nat)
    (w : world σ T) :
    submit_loop (deferred_executor : _ → _ → _ × Option ε) c vs w
      = ({ round := w.round,
           queue := w.queue ++ (vs.enumFrom c).map fun p => { index := p.1, value := p.2 } },
         none) := by
  induction vs generalizing c w with
  | nil => simp [submit_loop]
  | cons v vs ih => simp [submit_loop, deferred_executor, ih, List.enumFrom]

theorem isEmpty_of_ne_nil {T : Type} (S : List T) (h : S ≠ []) : S.isEmpty = false := by
  cases S with
  | nil => exact absurd rfl h
  | cons a l => rfl

theorem generator_deferred_nonempty {σ T ε : Type} (C : collector_ops σ T) (d : revision_type)
    (storage : commit_storage_type (List T)) (h : storage.value ≠ []) :
    filter_generator C d (deferred_executor : _ → _ → _ × Option ε) storage
      = ({ round := { collector := C.make storage.value.length, callbacks := [], trace := [] },
           queue := units_of storage.value },
         none) := by
  simp [filter_generator, isEmpty_of_ne_nil _ h, submit_loop_deferred, units_of]

theorem references_getElem? {T : Type} (S : List T) (i : Nat) :
    (references S)[i]? = S[i]?.map fun v => { position := i, get := v } := by
  simp [references, List.getElem?_map, List.getElem?_enumFrom]
  cases S[i]? <;> simp

theorem units_of_getElem? {T : Type} (S : List T) (i : Nat) :
    (units_of S)[i]?
      = S[i]?.map fun v => { index := i, value := { position := i, get := v } } := by
  simp [units_of, List.getElem?_map, List.getElem?_enumFrom, references_getElem?]
  cases S[i]? <;> simp

theorem units_of_length {T : Type} (S : List T) : (units_of S).length = S.length := by
  simp [units_of, references]

theorem units_of_map_value {T : Type} (S : List T) :
    (units_of S).map (·.value.get) = S := by
  apply List.ext_getElem?
  intro i
  rw [List.getElem?_map, units_of_getElem?]
  cases S[i]? <;> rfl

/-! ## Running units -/

theorem run_units_append {σ T ε : Type} (C : collector_ops σ T) (d : revision_type)
    (f : T → Except ε Bool) (st : commit_storage_type (List T))
    (us vs : List (work_unit T)) (s : round_state σ T) :
    run_units C d f st (us ++ vs) s
      = ((run_units C d f st vs (run_units C d f st us s).1).1,
         (run_units C d f st us s).2 ++ (run_units C d f st vs (run_units C d f st us s).1).2) := by
  induction us generalizing s with
  | nil => simp [run_units]
  | cons u us ih => simp [run_units, ih]

/-- A unit whose predicate faults: only the evaluation is traced. -/
theorem run_unit_error {σ T ε : Type} (C : collector_ops σ T) (d : revision_type)
    (f : T → Except ε Bool) (st : commit_storage_type (List T))
    (u : work_unit T) (s : round_state σ T) (e : ε) (h : f u.value.get = .error e) :
    run_unit C d f st u s
      = ({ collector := s.collector, callbacks := s.callbacks,
           trace := s.trace ++ [event.evaluate u.index u.value.get] }, some e) := by
  simp [run_unit, h]

/-- A unit whose predicate returns, in one equation. -/
theorem run_unit_ok {σ T ε : Type} (C : collector_ops σ T) (d : revision_type)
    (f : T → Except ε Bool) (st : commit_storage_type (List T))
    (u : work_unit T) (s : round_state σ T) (b : Bool) (h : f u.value.get = .ok b) :
    run_unit C d f st u s
      = ({ collector := (if b then C.construct s.collector u.value else C.skip s.collector).1,
           callbacks := s.callbacks ++
             (if (if b then C.construct s.collector u.value else C.skip s.collector).2 then
               [{ value := C.view
                    (if b then C.construct s.collector u.value else C.skip s.collector).1,
                  revision := d, revisions := [st.revision] }]
              else []),
           trace := s.trace ++ unit_calls (fun _ => b) u ++
             (if (if b then C.construct s.collector u.value else C.skip s.collector).2 then
               [event.callback u.index] else []) }, none) := by
  simp only [run_unit, h, unit_calls]
  cases (if b then C.construct s.collector u.value else C.skip s.collector).2 <;> simp

theorem completions_append {T : Type} (a b : List (event T)) :
    completions (a ++ b) = completions a ++ completions b := by
  induction a with
  | nil => rfl
  | cons x a ih => cases x <;> simp [completions, ih]

/-- The effect of one unit on the append collector. -/
theorem run_unit_append_collector {T ε : Type} (d : revision_type)
    (f : T → Except ε Bool) (st : commit_storage_type (List T))
    (u : work_unit T) (s : round_state (append_collector_type T) T) :
    (run_unit (append_ops T) d f st u s).1.collector
      = { capacity := s.collector.capacity,
          counter := s.collector.counter + (if resolves f u then 1 else 0),
          storage := s.collector.storage ++ (keeps f u).toList } := by
  cases h : f u.value.get with
  | error e => rw [run_unit_error _ d f st u s e h]; simp [resolves, keeps, h]
  | ok b =>
    rw [run_unit_ok _ d f st u s b h]
    cases b <;>
      simp [resolves, keeps, h, append_ops, append_collector_type.construct,
        append_collector_type.skip]

/-- A unit that does not resolve the last outstanding position hands nothing to `callback`. -/
theorem run_unit_append_quiet {T ε : Type} (d : revision_type)
    (f : T → Except ε Bool) (st : commit_storage_type (List T))
    (u : work_unit T) (s : round_state (append_collector_type T) T)
    (h : s.collector.counter + (if resolves f u then 1 else 0) < s.collector.capacity) :
    (run_unit (append_ops T) d f st u s).1.callbacks = s.callbacks ∧
    completions (run_unit (append_ops T) d f st u s).1.trace = completions s.trace := by
  cases hf : f u.value.get with
  | error e => rw [run_unit_error _ d f st u s e hf]; simp [completions_append, completions]
  | ok b =>
    rw [run_unit_ok _ d f st u s b hf]
    have hr : resolves f u = true := by simp [resolves, hf]
    rw [hr] at h
    have hne : s.collector.counter + 1 ≠ s.collector.capacity := by
      have := h; simp at this; omega
    cases b <;>
      simp [append_ops, append_collector_type.construct, append_collector_type.skip, hne,
        completions_append, completions, unit_calls]

/-- A unit that resolves the last outstanding position of the append collector hands one
commit to `callback`: the finished collection of the collector as it then is. -/
theorem run_unit_append_last {T ε : Type} (d : revision_type)
    (f : T → Except ε Bool) (st : commit_storage_type (List T))
    (u : work_unit T) (s : round_state (append_collector_type T) T)
    (hr : resolves f u = true) (h : s.collector.counter + 1 = s.collector.capacity) :
    (run_unit (append_ops T) d f st u s).1.callbacks
      = s.callbacks ++ [{ value := (List.range s.collector.capacity).filterMap fun i =>
                            (s.collector.storage ++ (keeps f u).toList).lookup i,
                          revision := d, revisions := [st.revision] }] ∧
    completions (run_unit (append_ops T) d f st u s).1.trace
      = completions s.trace ++ [u.index] ∧
    (run_unit (append_ops T) d f st u s).2 = none := by
  cases hf : f u.value.get with
  | error e => simp [resolves, hf] at hr
  | ok b =>
    rw [run_unit_ok _ d f st u s b hf]
    cases b <;>
      simp [append_ops, append_collector_type.construct, append_collector_type.skip, h,
        completions_append, completions, unit_calls, keeps, hf, append_collector_type.view]

/-- Running a list of units on the append collector: the collector afterwards. -/
theorem run_units_append_collector {T ε : Type} (d : revision_type)
    (f : T → Except ε Bool) (st : commit_storage_type (List T))
    (us : List (work_unit T)) (s : round_state (append_collector_type T) T) :
    (run_units (append_ops T) d f st us s).1.collector
      = { capacity := s.collector.capacity,
          counter := s.collector.counter + us.countP (resolves f),
          storage := s.collector.storage ++ us.filterMap (keeps f) } := by
  induction us generalizing s with
  | nil => simp [run_units]
  | cons u us ih =>
    simp only [run_units, ih, run_unit_append_collector, List.countP_cons, List.filterMap_cons]
    cases hk : keeps f u <;> simp [Nat.add_assoc, Nat.add_comm]

/-- As long as fewer positions are resolved than the collector has, nothing is handed to
`callback`. -/
theorem run_units_append_quiet {T ε : Type} (d : revision_type)
    (f : T → Except ε Bool) (st : commit_storage_type (List T))
    (us : List (work_unit T)) (s : round_state (append_collector_type T) T)
    (h : s.collector.counter + us.countP (resolves f) < s.collector.capacity) :
    (run_units (append_ops T) d f st us s).1.callbacks = s.callbacks ∧
    completions (run_units (append_ops T) d f st us s).1.trace = completions s.trace := by
  induction us generalizing s with
  | nil => simp [run_units]
  | cons u us ih =>
    simp only [run_units]
    rw [List.countP_cons] at h
    have h1 := run_unit_append_quiet d f st u s (by omega)
    have hc := run_unit_append_collector d f st u s
    have h2 := ih (run_unit (append_ops T) d f st u s).1 (by rw [hc]; simp only; omega)
    exact ⟨h2.1.trans h1.1, h2.2.trans h1.2⟩

/-- The faults recorded by a run are those of the units, in the order the units ran. -/
theorem run_units_faults {σ T ε : Type} (C : collector_ops σ T) (d : revision_type)
    (f : T → Except ε Bool) (st : commit_storage_type (List T))
    (us : List (work_unit T)) (s : round_state σ T) :
    (run_units C d f st us s).2 = us.filterMap (fault_of f) := by
  induction us generalizing s with
  | nil => simp [run_units]
  | cons u us ih =>
    simp only [run_units, ih, List.filterMap_cons]
    cases hf : f u.value.get with
    | error e => rw [run_unit_error C d f st u s e hf]; simp [fault_of, hf]
    | ok b => rw [run_unit_ok C d f st u s b hf]; simp [fault_of, hf]

/-! ## Schedules -/

theorem filterMap_range_getElem? {α : Type} (l : List α) :
    (List.range l.length).filterMap (fun i => l[i]?) = l := by
  induction l using List.reverseRecOn with
  | nil => rfl
  | append_singleton l a ih =>
    rw [List.length_append, List.length_singleton, List.range_succ, List.filterMap_append]
    have h1 : (List.range l.length).filterMap (fun i => (l ++ [a])[i]?)
        = (List.range l.length).filterMap (fun i => l[i]?) := by
      apply List.filterMap_congr
      intro i hi
      rw [List.mem_range] at hi
      exact List.getElem?_append_left hi
    rw [h1, ih]
    simp

/-- The units that a schedule runs, when the schedule is a permutation of the positions of the
queue: a permutation of the queue. -/
theorem schedule_perm {α : Type} (l : List α) (order : List Nat)
    (hp : order.Perm (List.range l.length)) :
    (order.filterMap fun i => l[i]?).Perm l := by
  have := hp.filterMap (fun i => l[i]?)
  rwa [filterMap_range_getElem?] at this

theorem resolves_total {T ε : Type} (P : T → Bool) (us : List (work_unit T)) :
    us.countP (resolves (total ε P)) = us.length := by
  rw [List.countP_eq_length]
  intro u _
  rfl

theorem faults_total {T ε : Type} (P : T → Bool) (us : List (work_unit T)) :
    us.filterMap (fault_of (total ε P)) = [] := by
  induction us with
  | nil => rfl
  | cons u us ih => rw [List.filterMap_cons, ih]; rfl

theorem filter_deferred_nonempty {σ T ε : Type} (C : collector_ops σ T) (d : revision_type)
    (f : T → Except ε Bool) (st : commit_storage_type (List T)) (order : List Nat)
    (h : st.value ≠ []) :
    filter_deferred C d f st order
      = run_units C d f st (order.filterMap fun i => (units_of st.value)[i]?)
          { collector := C.make st.value.length, callbacks := [], trace := [] } := by
  simp only [filter_deferred, run_schedule, generator_deferred_nonempty C d st h]

/-! ## The finished collection -/

/-- Looking a position up among entries that were made from a list of positions, each entry
carrying the position it was made from. -/
theorem lookup_filterMap {T : Type} (h : Nat → Option (Nat × T))
    (hpos : ∀ i e, h i = some e → e.1 = i) (order : List Nat) (i : Nat) :
    (order.filterMap h).lookup i = if i ∈ order then (h i).map (·.2) else none := by
  induction order with
  | nil => simp
  | cons j order ih =>
    rw [List.filterMap_cons]
    cases hj : h j with
    | none =>
      simp only [ih, List.mem_cons]
      by_cases hij : i = j
      · subst hij; simp [hj]
      · simp [hij]
    | some e =>
      have he := hpos j e hj
      obtain ⟨e1, e2⟩ := e
      simp only at he
      subst he
      simp only [List.lookup_cons, ih, List.mem_cons]
      by_cases hij : i = e1
      · subst hij; simp [hj]
      · have : (i == e1) = false := by simpa using hij
        simp [this, hij]

/-- The entries that the units of a schedule construct: for each position of the schedule,
in its order, the element at that position if it satisfies the predicate. -/
theorem schedule_entries {T ε : Type} (P : T → Bool) (S : List T) (order : List Nat) :
    (order.filterMap fun i => (units_of S)[i]?).filterMap (keeps (total ε P))
      = order.filterMap fun i => S[i]?.bind fun v => if P v then some (i, v) else none := by
  rw [List.filterMap_filterMap]
  apply List.filterMap_congr
  intro i _
  rw [units_of_getElem?]
  cases S[i]? with
  | none => rfl
  | some v => cases h : P v <;> simp [keeps, total, h]

/-- The finished collection of the append collector, once the units of every position have run,
in whatever order: the satisfying elements in upstream order. -/
theorem view_of_schedule {T : Type} (P : T → Bool) (S : List T) (order : List Nat)
    (hp : order.Perm (List.range S.length)) :
    ((List.range S.length).filterMap fun i =>
      (order.filterMap fun i => S[i]?.bind fun v => if P v then some (i, v) else none).lookup i)
      = S.filter P := by
  have h1 : ((List.range S.length).filterMap fun i =>
      (order.filterMap fun i => S[i]?.bind fun v => if P v then some (i, v) else none).lookup i)
      = (List.range S.length).filterMap fun i => (S[i]?).filter P := by
    apply List.filterMap_congr
    intro i hi
    rw [lookup_filterMap _ _ order i, if_pos (hp.mem_iff.mpr hi)]
    · cases S[i]? with
      | none => rfl
      | some v => cases h : P v <;> simp [Option.filter, h]
    · intro j e hj
      cases hS : S[j]? with
      | none => rw [hS] at hj; simp at hj
      | some v =>
        rw [hS] at hj
        simp only [Option.some_bind] at hj
        split at hj
        · cases hj; rfl
        · cases hj
  rw [h1, ← List.filter_filterMap, filterMap_range_getElem?]

end push
end stat
end frp

namespace frp
namespace stat
namespace push

open util

/-! ## The round as a whole -/

/-- A round over a non-empty collection whose predicate never faults, its units run in any
order: one commit is handed to `callback`, by the unit that ran last, and its value is the
satisfying elements in upstream order. -/
theorem deferred_round_summary {T ε : Type} (d : revision_type) (P : T → Bool)
    (st : commit_storage_type (List T)) (order : List Nat)
    (hS : st.value ≠ []) (hp : order.Perm (List.range st.value.length)) :
    ∃ o i, order = o ++ [i] ∧
      (filter_deferred (append_ops T) d (total ε P) st order).1.callbacks
        = [{ value := st.value.filter P, revision := d, revisions := [st.revision] }] ∧
      completions (filter_deferred (append_ops T) d (total ε P) st order).1.trace = [i] ∧
      (filter_deferred (append_ops T) d (total ε P) st order).2 = [] := by
  have hN : 0 < st.value.length := List.length_pos.mpr hS
  have hlen : order.length = st.value.length := by rw [hp.length_eq, List.length_range]
  rcases List.eq_nil_or_concat order with h0 | ⟨o, i, ho⟩
  · rw [h0] at hlen; simp at hlen; omega
  rw [List.concat_eq_append] at ho
  refine ⟨o, i, ho, ?_⟩
  have hi : i < st.value.length := by
    have : i ∈ order := by rw [ho]; simp
    exact List.mem_range.mp (hp.subset this)
  have holen : o.length + 1 = st.value.length := by rw [← hlen, ho]; simp
  have hq : (units_of st.value)[i]?
      = some { index := i, value := { position := i, get := st.value[i] } } := by
    rw [units_of_getElem?, List.getElem?_eq_getElem hi]; rfl
  have hus : (order.filterMap fun i => (units_of st.value)[i]?)
      = (o.filterMap fun i => (units_of st.value)[i]?)
          ++ [{ index := i, value := { position := i, get := st.value[i] } }] := by
    rw [ho, List.filterMap_append]; simp [hq]
  have hul : (o.filterMap fun i => (units_of st.value)[i]?).length = o.length := by
    have h1 := (schedule_perm (units_of st.value) order
      (by rw [units_of_length]; exact hp)).length_eq
    rw [hus, units_of_length] at h1
    simp at h1; omega
  have hent := @schedule_entries T ε P st.value order
  rw [hus, List.filterMap_append] at hent
  rw [filter_deferred_nonempty _ d _ st order hS, hus, run_units_append]
  generalize hs0 : (round_state.mk ((append_ops T).make st.value.length) [] [] :
      round_state (append_collector_type T) T) = s0
  have hcap : s0.collector.capacity = st.value.length := by rw [← hs0]; rfl
  have hcnt : s0.collector.counter = 0 := by rw [← hs0]; rfl
  have hsto : s0.collector.storage = [] := by rw [← hs0]; rfl
  have hcb : s0.callbacks = [] := by rw [← hs0]
  have htr : s0.trace = [] := by rw [← hs0]
  have hquiet := run_units_append_quiet d (total ε P) st
    (o.filterMap fun i => (units_of st.value)[i]?) s0
    (by rw [resolves_total, hul, hcnt, hcap]; omega)
  have hcol := run_units_append_collector d (total ε P) st
    (o.filterMap fun i => (units_of st.value)[i]?) s0
  have hfl := run_units_faults (append_ops T) d (total ε P) st
    (o.filterMap fun i => (units_of st.value)[i]?) s0
  rw [faults_total] at hfl
  generalize run_units (append_ops T) d (total ε P) st
    (o.filterMap fun i => (units_of st.value)[i]?) s0 = r at hquiet hcol hfl ⊢
  have hlast := run_unit_append_last d (total ε P) st
    { index := i, value := { position := i, get := st.value[i] } } r.1 rfl
    (by rw [hcol]; simp only; rw [resolves_total, hul, hcnt, hcap]; omega)
  simp only [run_units, hlast.1, hlast.2.1, hlast.2.2, hquiet.1, hquiet.2, hcb, htr,
    List.nil_append, completions, Option.toList, List.append_nil]
  refine ⟨?_, trivial, ?_⟩
  · rw [hcol]
    simp only [hsto, hcap, List.nil_append]
    have hv := view_of_schedule P st.value order hp
    rw [← hent] at hv
    simp only [List.filterMap_cons, List.filterMap_nil] at hv
    rw [← hv]
    cases keeps (total ε P) { index := i, value := { position := i, get := st.value[i] } } <;>
      rfl
  · rw [hfl]

/-- A round whose predicate never faults, over any collection, its units run in any order:
exactly one commit is handed to `callback`. -/
theorem deferred_round_commit {T ε : Type} (d : revision_type) (P : T → Bool)
    (st : commit_storage_type (List T)) (order : List Nat)
    (hp : order.Perm (List.range st.value.length)) :
    (filter_deferred (append_ops T) d (total ε P) st order).1.callbacks
      = [{ value := st.value.filter P, revision := d, revisions := [st.revision] }] := by
  by_cases hS : st.value = []
  · have ho : order = [] := by
      rw [hS] at hp
      exact List.perm_nil.mp hp
    subst ho
    simp [filter_deferred, filter_generator, hS, run_schedule, run_units, append_ops,
      append_collector_type.view, append_collector_type.make]
  · obtain ⟨o, i, _, h, _⟩ := @deferred_round_summary T ε d P st order hS hp
    exact h

/-! ## The inline executor -/

theorem units_cons {T : Type} (c : Nat) (v : element_ref T) (vs : List (element_ref T)) :
    ((v :: vs).enumFrom c).map (fun p => ({ index := p.1, value := p.2 } : work_unit T))
      = { index := c, value := v }
          :: (vs.enumFrom (c + 1)).map fun p => { index := p.1, value := p.2 } := by
  simp [List.enumFrom]

/-- With a predicate that never faults the inline loop runs the units in submission order. -/
theorem submit_loop_inline_total {σ T ε : Type} (C : collector_ops σ T) (d : revision_type)
    (P : T → Bool) (st : commit_storage_type (List T)) (vs : List (element_ref T)) (c : Nat)
    (w : world σ T) :
    submit_loop (inline_executor C d (total ε P) st) c vs w
      = ({ round := (run_units C d (total ε P) st
              ((vs.enumFrom c).map fun p => { index := p.1, value := p.2 }) w.round).1,
           queue := w.queue }, none) := by
  induction vs generalizing c w with
  | nil => simp [submit_loop, run_units]
  | cons v vs ih =>
    rw [units_cons]
    simp only [submit_loop, inline_executor, run_units]
    rw [run_unit_ok C d (total ε P) st { index := c, value := v } w.round (P v.get) rfl]
    simp only
    rw [ih]

/-- With an inline executor and a predicate that never faults, a round over a non-empty
collection is the round whose units run in submission order. -/
theorem filter_inline_eq_deferred {σ T ε : Type} (C : collector_ops σ T) (d : revision_type)
    (P : T → Bool) (st : commit_storage_type (List T)) (hS : st.value ≠ []) :
    filter_inline C d (total ε P) st
      = ((filter_deferred C d (total ε P) st (List.range st.value.length)).1, none) := by
  rw [filter_deferred_nonempty C d _ st _ hS]
  have hu : ((List.range st.value.length).filterMap fun i => (units_of st.value)[i]?)
      = units_of st.value := by
    have := filterMap_range_getElem? (units_of st.value)
    rwa [units_of_length] at this
  rw [hu]
  simp only [filter_inline, filter_generator, isEmpty_of_ne_nil _ hS, submit_loop_inline_total,
    units_of]
  rfl

/-- The inline loop on the append collector: as long as fewer elements have a returning
predicate than the collector has outstanding positions, nothing is handed to `callback`. -/
theorem submit_loop_inline_quiet {T ε : Type} (d : revision_type)
    (f : T → Except ε Bool) (st : commit_storage_type (List T)) (vs : List (element_ref T))
    (c : Nat) (w : world (append_collector_type T) T)
    (h : w.round.collector.counter + vs.countP (fun v => (f v.get).isOk)
          < w.round.collector.capacity) :
    (submit_loop (inline_executor (append_ops T) d f st) c vs w).1.round.callbacks
      = w.round.callbacks := by
  induction vs generalizing c w with
  | nil => simp [submit_loop]
  | cons v vs ih =>
    rw [List.countP_cons] at h
    simp only [submit_loop, inline_executor]
    cases hf : f v.get with
    | error e =>
      rw [run_unit_error _ d f st { index := c, value := v } w.round e hf]
    | ok b =>
      have hr : resolves f { index := c, value := v } = true := by simp [resolves, hf]
      have hok : (f v.get).isOk = true := by rw [hf]; rfl
      rw [hok] at h
      simp only [if_true] at h
      have h1 := run_unit_append_quiet d f st { index := c, value := v } w.round
        (by rw [hr]; simp only [if_true]; omega)
      have hc := run_unit_append_collector d f st { index := c, value := v } w.round
      rw [hr] at hc
      have hnone : (run_unit (append_ops T) d f st { index := c, value := v } w.round).2
          = none := by
        rw [run_unit_ok _ d f st { index := c, value := v } w.round b hf]
      generalize run_unit (append_ops T) d f st { index := c, value := v } w.round = r
        at h1 hc hnone
      obtain ⟨r1, r2⟩ := r
      simp only at hnone h1 hc
      subst hnone
      simp only
      rw [ih (c + 1) { round := r1, queue := w.queue }
        (by simp only [hc, if_true] at h ⊢; omega)]
      exact h1.1

/-- When the predicate faults on some element, a fault of the predicate on an element leaves
the inline loop. -/
theorem submit_loop_inline_fault {σ T ε : Type} (C : collector_ops σ T) (d : revision_type)
    (f : T → Except ε Bool) (st : commit_storage_type (List T)) (vs : List (element_ref T))
    (c : Nat) (w : world σ T) (h : ∃ v ∈ vs, ∃ e, f v.get = .error e) :
    ∃ v ∈ vs, ∃ e, f v.get = .error e ∧
      (submit_loop (inline_executor C d f st) c vs w).2 = some e := by
  induction vs generalizing c w with
  | nil => simp at h
  | cons v vs ih =>
    simp only [submit_loop, inline_executor]
    cases hf : f v.get with
    | error e =>
      rw [run_unit_error C d f st { index := c, value := v } w.round e hf]
      exact ⟨v, List.mem_cons_self _ _, e, hf, rfl⟩
    | ok b =>
      rw [run_unit_ok C d f st { index := c, value := v } w.round b hf]
      simp only
      obtain ⟨v1, hv1, e1, he1⟩ := h
      have hv1' : v1 ∈ vs := by
        rcases List.mem_cons.mp hv1 with h0 | h0
        · subst h0; rw [hf] at he1; cases he1
        · exact h0
      obtain ⟨v2, hv2, e2, he2, hr⟩ := ih (c + 1) _ ⟨v1, hv1', e1, he1⟩
      exact ⟨v2, List.mem_cons_of_mem _ hv2, e2, he2, hr⟩

theorem references_map_get {T : Type} (S : List T) : (references S).map (·.get) = S := by
  apply List.ext_getElem?
  intro i
  rw [List.getElem?_map, references_getElem?]
  cases S[i]? <;> rfl

/-! ## Faults of the predicate -/

theorem countP_lt_of_fault {T ε : Type} (f : T → Except ε Bool) (S : List T)
    (hf : ∃ v ∈ S, ∃ e, f v = .error e) :
    S.countP (fun v => (f v).isOk) < S.length := by
  refine lt_of_le_of_ne (List.countP_le_length _) ?_
  intro h
  rw [List.countP_eq_length] at h
  obtain ⟨v, hv, e, he⟩ := hf
  have := h v hv
  rw [he] at this
  cases this

theorem countP_resolves_units {T ε : Type} (f : T → Except ε Bool) (S : List T) :
    (units_of S).countP (resolves f) = S.countP (fun v => (f v).isOk) := by
  have h : S.countP (fun v => (f v).isOk)
      = ((units_of S).map (·.value.get)).countP (fun v => (f v).isOk) := by
    rw [units_of_map_value]
  rw [h, List.countP_map]
  apply List.countP_congr
  intro u _
  simp only [resolves, Function.comp]
  cases f u.value.get <;> simp [Except.isOk, Except.toBool]

theorem countP_references {T ε : Type} (f : T → Except ε Bool) (S : List T) :
    (references S).countP (fun v => (f v.get).isOk) = S.countP (fun v => (f v).isOk) := by
  have h : S.countP (fun v => (f v).isOk)
      = ((references S).map (·.get)).countP (fun v => (f v).isOk) := by
    rw [references_map_get]
  rw [h, List.countP_map]
  rfl

/-! ## Publication -/

theorem view_equal_refl {T : Type} (comparator : T → T → Bool)
    (h : ∀ a, comparator a a = true) (l : List T) : view_equal comparator l l = true := by
  induction l with
  | nil => rfl
  | cons a l ih => simp [view_equal, h, ih]

/-- A round of a node whose predicate never faults: the one commit of the round, with the
filtered value, is published against the current commit. -/
theorem node_round_eq {T ε : Type} (comparator : T → T → Bool) (P : T → Bool)
    (n : node T) (st : commit_storage_type (List T)) (order : List Nat)
    (hp : order.Perm (List.range st.value.length)) :
    node_round comparator (total ε P) n st order
      = node_publish comparator n
          { value := st.value.filter P, revision := default_revision,
            revisions := [st.revision] } := by
  simp only [node_round, deferred_round_commit default_revision P st order hp, List.foldl_cons,
    List.foldl_nil]

/-- After a round, the revision of the current commit is the sentinel or the latest revision
that the clock issued. -/
theorem node_publish_revision {T : Type} (comparator : T → T → Bool) (n : node T)
    (c : commit_storage_type (List T)) :
    (node_publish comparator n c).current.revision = default_revision ∨
    (node_publish comparator n c).current.revision = (node_publish comparator n c).clock := by
  unfold node_publish publish
  by_cases h : view_equal comparator c.value n.current.value = true
  · left; simp [h]
  · right; simp [h, clock_next]

end push
end stat
end frp

namespace frp
namespace stat
namespace push

open util

/-! ## Ordering of the filtered value -/

/-- C1: for every non-empty upstream collection, every predicate that returns and every order
in which the executor runs the submitted units (each once), the value of the commit that
`filter` hands to its callback is exactly the subsequence of the upstream collection whose
elements satisfy the predicate, in the original relative order. -/
theorem filter_preserves_order {T ε : Type} (d : revision_type) (P : T → Bool)
    (st : commit_storage_type (List T)) (order : List Nat)
    (hS : st.value ≠ []) (hp : order.Perm (List.range st.value.length)) :
    (filter_deferred (append_ops T) d (total ε P) st order).1.callbacks.map (·.value)
      = [st.value.filter P] := by
  obtain ⟨o, i, _, h, _⟩ := @deferred_round_summary T ε d P st order hS hp
  rw [h]
  rfl

theorem filter_preserves_order_witness :
    ([1, 2, 3] : List Nat) ≠ [] ∧ [2, 0, 1].Perm (List.range [1, 2, 3].length) ∧
    (filter_deferred (append_ops Nat) 0 (total Unit fun n => n % 2 == 1)
        { value := [1, 2, 3], revision := 7, revisions := [] } [2, 0, 1]).1.callbacks.map
          (·.value)
      = [[1, 3]] :=
  ⟨by decide, by decide,
    filter_preserves_order 0 (fun n => n % 2 == 1)
      { value := [1, 2, 3], revision := 7, revisions := [] } [2, 0, 1] (by decide) (by decide)⟩

/-- The calls behind the witness above: the units run in the order 2, 0, 1, the collector
takes the elements 3 and 1 in that order, and the finished collection is `[1, 3]`. -/
theorem scenario_out_of_order :
    (filter_deferred (append_ops Nat) 0 (total Unit fun n => n % 2 == 1)
        { value := [1, 2, 3], revision := 7, revisions := [] } [2, 0, 1]).1.trace
      = [event.evaluate 2 3, event.construct 2 3, event.evaluate 0 1, event.construct 0 1,
         event.evaluate 1 2, event.skip 1, event.callback 1] ∧
    (filter_deferred (append_ops Nat) 0 (total Unit fun n => n % 2 == 1)
        { value := [1, 2, 3], revision := 7, revisions := [] } [2, 0, 1]).1.collector
      = { capacity := 3, counter := 3, storage := [(2, 3), (0, 1)] } ∧
    (filter_deferred (append_ops Nat) 0 (total Unit fun n => n % 2 == 1)
        { value := [1, 2, 3], revision := 7, revisions := [] } [2, 0, 1]).1.callbacks
      = [{ value := [1, 3], revision := 0, revisions := [7] }] := by
  decide

/-- C9: for every non-empty upstream collection, every predicate that returns and every order
in which the submitted units run (each once), a single commit is handed to `callback`, and
its value is a permutation of the elements satisfying the predicate; its length is the number
of satisfying elements. -/
theorem filter_value_perm {T ε : Type} (d : revision_type) (P : T → Bool)
    (st : commit_storage_type (List T)) (order : List Nat)
    (hS : st.value ≠ []) (hp : order.Perm (List.range st.value.length)) :
    ∃ c, (filter_deferred (append_ops T) d (total ε P) st order).1.callbacks = [c] ∧
      c.value.Perm (st.value.filter P) ∧ c.value.length = st.value.countP P := by
  obtain ⟨o, i, _, h, _⟩ := @deferred_round_summary T ε d P st order hS hp
  refine ⟨_, h, List.Perm.refl _, ?_⟩
  simp only
  rw [List.countP_eq_length_filter]

theorem filter_value_perm_witness :
    ([4, 1, 4, 3] : List Nat) ≠ [] ∧ [3, 2, 0, 1].Perm (List.range [4, 1, 4, 3].length) ∧
    ∃ c, (filter_deferred (append_ops Nat) 0 (total Unit fun n => n % 2 == 0)
        { value := [4, 1, 4, 3], revision := 7, revisions := [] } [3, 2, 0, 1]).1.callbacks = [c] ∧
      c.value.Perm ([4, 1, 4, 3].filter fun n => n % 2 == 0) ∧
      c.value.length = [4, 1, 4, 3].countP fun n => n % 2 == 0 :=
  ⟨by decide, by decide,
    filter_value_perm 0 (fun n => n % 2 == 0)
      { value := [4, 1, 4, 3], revision := 7, revisions := [] } [3, 2, 0, 1]
      (by decide) (by decide)⟩

/-- C2: when the executor runs each unit at the moment of submission, for every non-empty
upstream collection and every predicate that returns, `callback` is invoked exactly once, with
the sentinel revision, the upstream revision as source revision and, as value, the elements
satisfying the predicate in upstream order; no fault leaves the round. -/
theorem filter_inline_value {T ε : Type} (d : revision_type) (P : T → Bool)
    (st : commit_storage_type (List T)) (hS : st.value ≠ []) :
    (filter_inline (append_ops T) d (total ε P) st).1.callbacks
      = [{ value := st.value.filter P, revision := d, revisions := [st.revision] }] ∧
    (filter_inline (append_ops T) d (total ε P) st).2 = none := by
  rw [filter_inline_eq_deferred _ d P st hS]
  refine ⟨?_, rfl⟩
  simp only
  rw [deferred_round_commit d P st _ (List.Perm.refl _)]

theorem filter_inline_value_witness :
    ([1, 2, 3, 4] : List Nat) ≠ [] ∧
    (filter_inline (append_ops Nat) 0 (total Unit fun n => n % 2 == 0)
        { value := [1, 2, 3, 4], revision := 7, revisions := [] }).1.callbacks
      = [{ value := [2, 4], revision := 0, revisions := [7] }] ∧
    (filter_inline (append_ops Nat) 0 (total Unit fun n => n % 2 == 0)
        { value := [1, 2, 3, 4], revision := 7, revisions := [] }).2 = none :=
  ⟨by decide,
    filter_inline_value 0 (fun n => n % 2 == 0)
      { value := [1, 2, 3, 4], revision := 7, revisions := [] } (by decide)⟩

/-- Scenario C: the collection `[5]` and a predicate that never holds give the empty value,
through a single `skip` that completes the collector. -/
theorem scenario_always_false :
    (filter_inline (append_ops Nat) 0 (total Unit fun _ => false)
        { value := [5], revision := 7, revisions := [] }).1.callbacks
      = [{ value := [], revision := 0, revisions := [7] }] ∧
    (filter_inline (append_ops Nat) 0 (total Unit fun _ => false)
        { value := [5], revision := 7, revisions := [] }).1.trace
      = [event.evaluate 0 5, event.skip 0, event.callback 0] := by
  decide

/-- C3: for every upstream commit whose collection is empty, whatever the predicate and the
executor, the generator leaves the executor alone (nothing is queued, nothing is evaluated)
and hands `callback` exactly one commit: the empty collection, the sentinel revision and the
upstream revision as the only source revision. -/
theorem filter_empty_shortcut {T ε : Type} (d : revision_type)
    (executor : world (append_collector_type T) T → work_unit T
      → world (append_collector_type T) T × Option ε)
    (st : commit_storage_type (List T)) (h : st.value = []) :
    filter_generator (append_ops T) d executor st
      = ({ round := { collector := append_collector_type.make 0,
                      callbacks := [{ value := [], revision := d,
                                      revisions := [st.revision] }],
                      trace := [] },
           queue := [] }, none) := by
  simp [filter_generator, h, append_ops, append_collector_type.view,
    append_collector_type.make]

theorem filter_empty_shortcut_witness :
    ({ value := [], revision := 7, revisions := [3] } : commit_storage_type (List Nat)).value
      = [] ∧
    filter_generator (append_ops Nat) 0
        (inline_executor (append_ops Nat) 0 (total Unit fun _ => true)
          { value := [], revision := 7, revisions := [3] })
        { value := [], revision := 7, revisions := [3] }
      = ({ round := { collector := append_collector_type.make 0,
                      callbacks := [{ value := [], revision := 0, revisions := [7] }],
                      trace := [] },
           queue := [] }, none) :=
  ⟨rfl, filter_empty_shortcut 0 _ { value := [], revision := 7, revisions := [3] } rfl⟩

/-- C4: for every non-empty upstream collection, every predicate that returns and every order
in which the submitted units run (each once), exactly one unit observes the collector
becoming complete, the unit that runs last, and `callback` is invoked exactly once. -/
theorem filter_exactly_one_completion {T ε : Type} (d : revision_type) (P : T → Bool)
    (st : commit_storage_type (List T)) (order : List Nat)
    (hS : st.value ≠ []) (hp : order.Perm (List.range st.value.length)) :
    ∃ i, order.getLast? = some i ∧
      completions (filter_deferred (append_ops T) d (total ε P) st order).1.trace = [i] ∧
      (filter_deferred (append_ops T) d (total ε P) st order).1.callbacks.length = 1 := by
  obtain ⟨o, i, ho, h, hc, _⟩ := @deferred_round_summary T ε d P st order hS hp
  refine ⟨i, ?_, hc, ?_⟩
  · rw [ho]; simp
  · rw [h]; rfl

theorem filter_exactly_one_completion_witness :
    ([1, 2, 3] : List Nat) ≠ [] ∧ [1, 2, 0].Perm (List.range [1, 2, 3].length) ∧
    ∃ i, [1, 2, 0].getLast? = some i ∧
      completions (filter_deferred (append_ops Nat) 0 (total Unit fun n => n % 2 == 1)
        { value := [1, 2, 3], revision := 7, revisions := [] } [1, 2, 0]).1.trace = [i] ∧
      (filter_deferred (append_ops Nat) 0 (total Unit fun n => n % 2 == 1)
        { value := [1, 2, 3], revision := 7, revisions := [] } [1, 2, 0]).1.callbacks.length
        = 1 :=
  ⟨by decide, by decide,
    filter_exactly_one_completion 0 (fun n => n % 2 == 1)
      { value := [1, 2, 3], revision := 7, revisions := [] } [1, 2, 0] (by decide) (by decide)⟩

/-! ## Faults of the predicate -/

/-- C7: when the predicate faults on at least one element of the upstream collection, no
commit is handed to `callback`, in whatever order the units run and also with an inline
executor; with an inline executor a fault of the predicate on an element of the collection is
returned to the caller of the generator. -/
theorem filter_fault_publishes_nothing {T ε : Type} (d : revision_type)
    (f : T → Except ε Bool) (st : commit_storage_type (List T))
    (hf : ∃ v ∈ st.value, ∃ e, f v = .error e) :
    (∀ order : List Nat, order.Perm (List.range st.value.length) →
      (filter_deferred (append_ops T) d f st order).1.callbacks = []) ∧
    (filter_inline (append_ops T) d f st).1.callbacks = [] ∧
    ∃ v ∈ st.value, ∃ e, f v = .error e ∧
      (filter_inline (append_ops T) d f st).2 = some e := by
  have hS : st.value ≠ [] := by
    obtain ⟨v, hv, _⟩ := hf
    exact List.ne_nil_of_mem hv
  have hne := isEmpty_of_ne_nil _ hS
  have hlt := countP_lt_of_fault f st.value hf
  refine ⟨?_, ?_, ?_⟩
  · intro order hp
    rw [filter_deferred_nonempty _ d f st order hS]
    have hperm := schedule_perm (units_of st.value) order
      (by rw [units_of_length]; exact hp)
    have hq := run_units_append_quiet d f st
      (order.filterMap fun i => (units_of st.value)[i]?)
      { collector := (append_ops T).make st.value.length, callbacks := [], trace := [] }
      (by
        rw [hperm.countP_eq, countP_resolves_units]
        simpa [append_ops, append_collector_type.make] using hlt)
    exact hq.1
  · simp only [filter_inline, filter_generator, hne]
    exact submit_loop_inline_quiet d f st (references st.value) 0 _
      (by
        rw [countP_references]
        simpa [append_ops, append_collector_type.make] using hlt)
  · simp only [filter_inline, filter_generator, hne]
    have hf2 : ∃ r ∈ references st.value, ∃ e, f r.get = .error e := by
      obtain ⟨v, hv, e, he⟩ := hf
      rw [← references_map_get st.value] at hv
      obtain ⟨r, hr, hrv⟩ := List.mem_map.mp hv
      exact ⟨r, hr, e, by rw [hrv]; exact he⟩
    obtain ⟨r, hr, e, he, hres⟩ :=
      submit_loop_inline_fault (append_ops T) d f st (references st.value) 0
        { round := { collector := (append_ops T).make st.value.length, callbacks := [],
                     trace := [] },
          queue := [] } hf2
    refine ⟨r.get, ?_, e, he, hres⟩
    rw [← references_map_get st.value]
    exact List.mem_map.mpr ⟨r, hr, rfl⟩

theorem filter_fault_publishes_nothing_witness :
    (∃ v ∈ ({ value := [1, 2, 3], revision := 7, revisions := [] }
        : commit_storage_type (List Nat)).value,
      ∃ e, (fun n => if n = 2 then Except.error "boom" else Except.ok true) v
        = Except.error e) ∧
    ((∀ order : List Nat, order.Perm (List.range [1, 2, 3].length) →
      (filter_deferred (append_ops Nat) 0
        (fun n => if n = 2 then Except.error "boom" else Except.ok true)
        { value := [1, 2, 3], revision := 7, revisions := [] } order).1.callbacks = []) ∧
    (filter_inline (append_ops Nat) 0
        (fun n => if n = 2 then Except.error "boom" else Except.ok true)
        { value := [1, 2, 3], revision := 7, revisions := [] }).1.callbacks = [] ∧
    ∃ v ∈ [1, 2, 3], ∃ e,
      (fun n => if n = 2 then Except.error "boom" else Except.ok true) v = Except.error e ∧
      (filter_inline (append_ops Nat) 0
        (fun n => if n = 2 then Except.error "boom" else Except.ok true)
        { value := [1, 2, 3], revision := 7, revisions := [] }).2 = some e) :=
  ⟨⟨2, by decide, "boom", rfl⟩,
    filter_fault_publishes_nothing 0
      (fun n => if n = 2 then Except.error "boom" else Except.ok true)
      { value := [1, 2, 3], revision := 7, revisions := [] } ⟨2, by decide, "boom", rfl⟩⟩

/-- A faulting round, evaluated: the units before the faulting one have run, the fault is
returned and nothing was handed to `callback`. -/
theorem scenario_fault :
    (filter_inline (append_ops Nat) 0
        (fun n => if n = 2 then Except.error "boom" else Except.ok true)
        { value := [1, 2, 3], revision := 7, revisions := [] }).2 = some "boom" ∧
    (filter_inline (append_ops Nat) 0
        (fun n => if n = 2 then Except.error "boom" else Except.ok true)
        { value := [1, 2, 3], revision := 7, revisions := [] }).1.trace
      = [event.evaluate 0 1, event.construct 0 1, event.evaluate 1 2] := by
  decide

end push
end stat
end frp

namespace frp
namespace stat
namespace push

open util

/-! ## Revisions -/

/-- C5: a derivation round of a `filter` node (any collection, any predicate that returns, any
order of the units) whose filtered result is element-wise equal to the node's current value
publishes the filtered result with the sentinel revision and the new upstream revision as
its only source revision, and takes no revision from the clock; in particular this is what
the round for a second upstream commit with the same collection publishes, whatever the
orders in which the units of the two rounds run. -/
theorem filter_noop_keeps_sentinel {T ε : Type} (comparator : T → T → Bool) (P : T → Bool)
    (n : node T) (st : commit_storage_type (List T)) (order : List Nat)
    (hp : order.Perm (List.range st.value.length)) :
    (view_equal comparator (st.value.filter P) n.current.value = true →
      node_round comparator (total ε P) n st order
        = { clock := n.clock,
            current := { value := st.value.filter P, revision := default_revision,
                         revisions := [st.revision] } }) ∧
    (∀ (st2 : commit_storage_type (List T)) (order2 : List Nat),
      order2.Perm (List.range st2.value.length) → st2.value = st.value →
      (∀ a, comparator a a = true) →
      node_round comparator (total ε P) (node_round comparator (total ε P) n st order)
          st2 order2
        = { clock := (node_round comparator (total ε P) n st order).clock,
            current := { value := st2.value.filter P, revision := default_revision,
                         revisions := [st2.revision] } }) := by
  constructor
  · intro heq
    rw [node_round_eq comparator P n st order hp]
    simp only [node_publish, publish, heq, if_true]
  · intro st2 order2 hp2 hv hrefl
    rw [node_round_eq comparator P _ st2 order2 hp2, node_round_eq comparator P n st order hp]
    have hval : (node_publish comparator n
        { value := st.value.filter P, revision := default_revision,
          revisions := [st.revision] }).current.value = st.value.filter P := by
      unfold node_publish publish
      split <;> rfl
    have heq : view_equal comparator (st2.value.filter P)
        (node_publish comparator n
          { value := st.value.filter P, revision := default_revision,
            revisions := [st.revision] }).current.value = true := by
      rw [hval, hv]
      exact view_equal_refl comparator hrefl _
    generalize node_publish comparator n
        { value := st.value.filter P, revision := default_revision,
          revisions := [st.revision] } = n1 at heq ⊢
    simp only [node_publish, publish, heq, if_true]

theorem filter_noop_keeps_sentinel_witness :
    [2, 1, 0].Perm (List.range [1, 2, 3].length) ∧
    ((view_equal (fun a b : Nat => a == b) ([1, 2, 3].filter fun _ => true) [1, 2, 3] = true →
      node_round (fun a b : Nat => a == b) (total Unit fun _ => true)
          { clock := 9, current := { value := [1, 2, 3], revision := 5, revisions := [8] } }
          { value := [1, 2, 3], revision := 11, revisions := [] } [2, 1, 0]
        = { clock := 9,
            current := { value := [1, 2, 3].filter fun _ => true,
                         revision := default_revision, revisions := [11] } }) ∧
    (∀ (st2 : commit_storage_type (List Nat)) (order2 : List Nat),
      order2.Perm (List.range st2.value.length) → st2.value = [1, 2, 3] →
      (∀ a : Nat, (a == a) = true) →
      node_round (fun a b : Nat => a == b) (total Unit fun _ => true)
          (node_round (fun a b : Nat => a == b) (total Unit fun _ => true)
            { clock := 9, current := { value := [1, 2, 3], revision := 5, revisions := [8] } }
            { value := [1, 2, 3], revision := 11, revisions := [] } [2, 1, 0])
          st2 order2
        = { clock := (node_round (fun a b : Nat => a == b) (total Unit fun _ => true)
              { clock := 9, current := { value := [1, 2, 3], revision := 5, revisions := [8] } }
              { value := [1, 2, 3], revision := 11, revisions := [] } [2, 1, 0]).clock,
            current := { value := st2.value.filter fun _ => true,
                         revision := default_revision, revisions := [st2.revision] } })) :=
  ⟨by decide,
    filter_noop_keeps_sentinel (fun a b : Nat => a == b) (fun _ => true)
      { clock := 9, current := { value := [1, 2, 3], revision := 5, revisions := [8] } }
      { value := [1, 2, 3], revision := 11, revisions := [] } [2, 1, 0] (by decide)⟩

/-- Scenario D, evaluated: a node with some other value receives `[1, 2, 3]` twice, the units
of the first round running in submission order and those of the second in reverse; the first
round publishes with a fresh revision, the second with the sentinel.  Likewise an empty
collection after an empty value. -/
theorem scenario_equal_content :
    node_round (fun a b : Nat => a == b) (total Unit fun _ => true)
        { clock := 4, current := { value := [9], revision := 3, revisions := [6] } }
        { value := [1, 2, 3], revision := 7, revisions := [] } [0, 1, 2]
      = { clock := 5, current := { value := [1, 2, 3], revision := 5, revisions := [7] } } ∧
    node_round (fun a b : Nat => a == b) (total Unit fun _ => true)
        { clock := 5, current := { value := [1, 2, 3], revision := 5, revisions := [7] } }
        { value := [1, 2, 3], revision := 8, revisions := [] } [2, 1, 0]
      = { clock := 5, current := { value := [1, 2, 3], revision := 0, revisions := [8] } } ∧
    node_round (fun a b : Nat => a == b) (total Unit fun _ => true)
        { clock := 5, current := { value := [], revision := 0, revisions := [7] } }
        { value := [], revision := 8, revisions := [] } []
      = { clock := 5, current := { value := [], revision := 0, revisions := [8] } } := by
  decide

/-- C6: when a `filter` node has gone through a derivation round, a further round (any
collection, any predicate that returns, any order of the units) whose filtered result is not
equal, by the comparator, to the node's current value publishes the filtered result with
the revision that the clock issues next, which is not the sentinel, is strictly later than
the revision of the node's previous commit and than every revision issued before. -/
theorem filter_changed_value_fresh_revision {T ε : Type} (comparator : T → T → Bool)
    (P : T → Bool) (n : node T) (st1 st2 : commit_storage_type (List T))
    (order1 order2 : List Nat)
    (hp1 : order1.Perm (List.range st1.value.length))
    (hp2 : order2.Perm (List.range st2.value.length))
    (hne : view_equal comparator (st2.value.filter P)
      (node_round comparator (total ε P) n st1 order1).current.value = false) :
    node_round comparator (total ε P) (node_round comparator (total ε P) n st1 order1)
        st2 order2
      = { clock := (clock_next (node_round comparator (total ε P) n st1 order1).clock).2,
          current :=
            { value := st2.value.filter P,
              revision := (clock_next (node_round comparator (total ε P) n st1 order1).clock).1,
              revisions := [st2.revision] } } ∧
    (clock_next (node_round comparator (total ε P) n st1 order1).clock).1 ≠ default_revision ∧
    (node_round comparator (total ε P) n st1 order1).current.revision
      < (clock_next (node_round comparator (total ε P) n st1 order1).clock).1 ∧
    (node_round comparator (total ε P) n st1 order1).clock
      < (clock_next (node_round comparator (total ε P) n st1 order1).clock).1 := by
  have hrev : (node_round comparator (total ε P) n st1 order1).current.revision
        = default_revision ∨
      (node_round comparator (total ε P) n st1 order1).current.revision
        = (node_round comparator (total ε P) n st1 order1).clock := by
    rw [node_round_eq comparator P n st1 order1 hp1]
    exact node_publish_revision comparator n _
  rw [node_round_eq comparator P _ st2 order2 hp2]
  generalize node_round comparator (total ε P) n st1 order1 = n1 at hne hrev ⊢
  refine ⟨?_, ?_, ?_, ?_⟩
  · simp only [node_publish, publish, hne, Bool.false_eq_true, if_false]
  · exact Nat.succ_ne_zero _
  · rcases hrev with h | h
    · rw [h]; exact Nat.succ_pos _
    · rw [h]; exact Nat.lt_succ_self _
  · exact Nat.lt_succ_self _

theorem filter_changed_value_fresh_revision_witness :
    [0, 1, 2].Perm (List.range [1, 2, 3].length) ∧
    [2, 0, 1, 3].Perm (List.range [1, 2, 3, 4].length) ∧
    view_equal (fun a b : Nat => a == b) ([1, 2, 3, 4].filter fun n => n % 2 == 0)
      (node_round (fun a b : Nat => a == b) (total Unit fun n => n % 2 == 0)
        { clock := 4, current := { value := [9], revision := 3, revisions := [6] } }
        { value := [1, 2, 3], revision := 7, revisions := [] } [0, 1, 2]).current.value
      = false ∧
    (node_round (fun a b : Nat => a == b) (total Unit fun n => n % 2 == 0)
        (node_round (fun a b : Nat => a == b) (total Unit fun n => n % 2 == 0)
          { clock := 4, current := { value := [9], revision := 3, revisions := [6] } }
          { value := [1, 2, 3], revision := 7, revisions := [] } [0, 1, 2])
        { value := [1, 2, 3, 4], revision := 8, revisions := [] } [2, 0, 1, 3]
      = { clock := 6, current := { value := [2, 4], revision := 6, revisions := [8] } } ∧
    (6 : Nat) ≠ default_revision ∧
    (node_round (fun a b : Nat => a == b) (total Unit fun n => n % 2 == 0)
        { clock := 4, current := { value := [9], revision := 3, revisions := [6] } }
        { value := [1, 2, 3], revision := 7, revisions := [] } [0, 1, 2]).current.revision
      < 6 ∧
    (node_round (fun a b : Nat => a == b) (total Unit fun n => n % 2 == 0)
        { clock := 4, current := { value := [9], revision := 3, revisions := [6] } }
        { value := [1, 2, 3], revision := 7, revisions := [] } [0, 1, 2]).clock < 6) :=
  ⟨by decide, by decide, by decide,
    filter_changed_value_fresh_revision (fun a b : Nat => a == b) (fun n => n % 2 == 0)
      { clock := 4, current := { value := [9], revision := 3, revisions := [6] } }
      { value := [1, 2, 3], revision := 7, revisions := [] }
      { value := [1, 2, 3, 4], revision := 8, revisions := [] }
      [0, 1, 2] [2, 0, 1, 3] (by decide) (by decide) (by decide)⟩

/-- Successive rounds, evaluated: the value changes, stays, and changes again; the revisions
published are 5, the sentinel, and 6. -/
theorem scenario_changed_content :
    node_round (fun a b : Nat => a == b) (total Unit fun n => n % 2 == 0)
        { clock := 4, current := { value := [9], revision := 3, revisions := [6] } }
        { value := [1, 2, 3], revision := 7, revisions := [] } [0, 1, 2]
      = { clock := 5, current := { value := [2], revision := 5, revisions := [7] } } ∧
    node_round (fun a b : Nat => a == b) (total Unit fun n => n % 2 == 0)
        { clock := 5, current := { value := [2], revision := 5, revisions := [7] } }
        { value := [2, 5], revision := 8, revisions := [] } [1, 0]
      = { clock := 5, current := { value := [2], revision := 0, revisions := [8] } } ∧
    node_round (fun a b : Nat => a == b) (total Unit fun n => n % 2 == 0)
        { clock := 5, current := { value := [2], revision := 0, revisions := [8] } }
        { value := [1, 2, 3, 4], revision := 9, revisions := [] } [2, 0, 1, 3]
      = { clock := 6, current := { value := [2, 4], revision := 6, revisions := [9] } } := by
  decide

/-! ## Dispatch -/

/-- The units submitted for `[1, 2, 3]`, what an executor that runs them at once is handed,
and the calls they make when run in submission order with the predicate "is odd". -/
theorem scenario_dispatch :
    units_of [1, 2, 3]
      = [{ index := 0, value := { position := 0, get := 1 } },
         { index := 1, value := { position := 1, get := 2 } },
         { index := 2, value := { position := 2, get := 3 } }] ∧
    (filter_generator (append_ops Nat) 0
        (recording_executor (append_ops Nat) 0 (total Unit fun n => n % 2 == 1)
          { value := [1, 2, 3], revision := 7, revisions := [] })
        { value := [1, 2, 3], revision := 7, revisions := [] }).1.queue
      = units_of [1, 2, 3] ∧
    (filter_inline (append_ops Nat) 0 (total Unit fun n => n % 2 == 1)
        { value := [1, 2, 3], revision := 7, revisions := [] }).1.trace
      = [event.evaluate 0 1, event.construct 0 1, event.evaluate 1 2, event.skip 1,
         event.evaluate 2 3, event.construct 2 3, event.callback 2] := by
  decide

end push
end stat

namespace util

/-! ## `util::invoke` -/

/-- C10: for every function `f` and every tuple `t` of `n` elements (`n` may be zero),
`util::invoke(f, t)` is `f` applied to `get<0>(t), ..., get<n-1>(t)` in this order, each
element once; and invoking with a reference wrapper around the tuple gives the result of
invoking with the tuple itself. -/
theorem invoke_applies_in_index_order {A R : Type} (f : List A → R) (t : List A) :
    invoke f (maybe_reference.object t) = f (List.ofFn fun i : Fin t.length => t.get i) ∧
    invoke f (maybe_reference.object t) = f t ∧
    invoke f (maybe_reference.reference_wrapper t) = invoke f (maybe_reference.object t) := by
  refine ⟨?_, ?_, rfl⟩
  · simp only [invoke, details.invoke, make_index_sequence, unwrap_reference]
    rw [List.ofFn_eq_map]
  · simp only [invoke, details.invoke, make_index_sequence, unwrap_reference]
    rw [List.finRange_map_get]

/-- The arguments in order, evaluated: digits of a tuple read as a decimal number, and the
empty tuple. -/
theorem scenario_invoke :
    invoke (fun l : List Nat => l.foldl (fun a b => 10 * a + b) 0)
        (maybe_reference.object [1, 2, 3]) = 123 ∧
    invoke (fun l : List Nat => l.foldl (fun a b => 10 * a + b) 0)
        (maybe_reference.reference_wrapper [1, 2, 3]) = 123 ∧
    invoke (fun l : List Nat => l.length) (maybe_reference.object []) = 0 := by
  decide

end util
end frp
